import Mathlib

/-!
Verification of the resumable classification pipeline of the
conference-talk grace-works classifier.

The development shallowly embeds the parts of the program that the
claims are about:

- the resume ledger (processors/csv_manager.py, load_processed_talks_from_csv),
- the incremental CSV writer (processors/csv_manager.py, write_to_csv) and
  the batched flush loop (classifier_optimized.py, process_talks_with_progress),
- the classification invoker (processors/classifier_processor.py,
  get_llm_classification),
- the work-list selection (classifier_optimized.py, determine_files_to_process),
- the speaker-name cleaning and fuzzy-deduplication map (clean_data.py,
  clean_speaker_name_basic and build_name_standardization_map).

CSV rows are modelled as association lists from column name to cell text,
matching the dict rows produced by csv.DictReader.  File contents are
modelled as an optional list of lines (none when the file does not exist).
The external LLM transport and JSON parser are modelled by an explicit
outcome type; the external fuzzy similarity metric and the random sampler
are parameters of the functions that call them.
-/

namespace GraceWorks

/-! ### Text utilities

Python substring containment (the in operator) over the character list of
a string, written with structural recursion so that concrete instances
reduce. -/

/-- True when pat occurs as a contiguous substring of s, like the Python
expression pat in s. -/
def listContains (s pat : List Char) : Bool :=
  pat.isPrefixOf s ||
    match s with
    | [] => false
    | _ :: t => listContains t pat

/-- Substring containment on strings: models the Python test sub in s. -/
def containsText (s sub : String) : Bool :=
  listContains s.data sub.data

/-! ### CSV rows and the resume ledger (processors/csv_manager.py) -/

/-- A CSV row as produced by csv.DictReader: an association list from
column name to cell value. -/
abbrev CsvRow := List (String × String)

/-- Models row.get(key, dflt) on a DictReader row. -/
def rowGet (row : CsvRow) (key dflt : String) : String :=
  match row with
  | [] => dflt
  | (k, v) :: rest => if k = key then v else rowGet rest key dflt

/-- The fixed error-sentinel substrings of the resume ledger
(error_indicators in load_processed_talks_from_csv). -/
def error_indicators : List String :=
  ["Error parsing LLM response", "Error in classification"]

/-- True when the explanation field of a row contains one of the fixed
error sentinels: the test deciding that load_processed_talks_from_csv
skips the row. -/
def isErrorRow (row : CsvRow) : Bool :=
  error_indicators.any (fun e => containsText (rowGet row "explanation" "") e)

/-- The loop body of load_processed_talks_from_csv in
processors/csv_manager.py: read filename and explanation with defaults
of the empty string, skip the row when the explanation contains an error
sentinel, and otherwise add the filename to the set of processed
filenames and append the row to the successful rows. -/
def loadStep (acc : List String × List CsvRow) (row : CsvRow) :
    List String × List CsvRow :=
  if isErrorRow row then acc
  else (acc.1.insert (rowGet row "filename" ""), acc.2 ++ [row])

/-- load_processed_talks_from_csv of processors/csv_manager.py on the
row list of an existing readable table (the missing-file and read-error
paths return the empty ledger before this loop runs). -/
def load_processed_talks_from_csv (rows : List CsvRow) :
    List String × List CsvRow :=
  rows.foldl loadStep ([], [])

/-- The degraded result row built by process_single_talk_optimized in
classifier_optimized.py when content extraction fails. -/
def extraction_failed_row (filename year month csid tid speaker model : String) :
    CsvRow :=
  [("filename", filename),
   ("year", year),
   ("month", month),
   ("conference_session_id", csid),
   ("talk_identifier", tid),
   ("speaker_name", speaker),
   ("text_preview", "Error: Could not read content"),
   ("score", "0"),
   ("explanation", "File content extraction failed"),
   ("key_phrases", ""),
   ("model_used", model)]

/-! ### Incremental CSV writer (processors/csv_manager.py, write_to_csv)
and the batched flush loop (classifier_optimized.py). -/

/-- One line of the output CSV file: the header row or a data row. -/
inductive CsvLine where
  | header : CsvLine
  | row : CsvRow → CsvLine
deriving DecidableEq

/-- The state of the output file: none when the file does not exist,
otherwise its list of lines (the empty list is an existing zero-byte
file). -/
abbrev FileState := Option (List CsvLine)

/-- write_to_csv: with empty data it returns at once; otherwise it opens
the file in mode w (truncate) when write_header is true, writing the
header and then the rows, and in mode a (append) when write_header is
false, appending the rows at the end of whatever the file held. -/
def write_to_csv (data : List CsvRow) (file : FileState) (write_header : Bool) :
    FileState :=
  if data.isEmpty then file
  else if write_header then some (CsvLine.header :: data.map CsvLine.row)
  else some (file.getD [] ++ data.map CsvLine.row)

/-- The test file_exists_and_has_content of the incremental write logic
in process_talks_with_progress: the path exists and has positive size. -/
def fileHasContent : FileState → Bool
  | none => false
  | some lines => !lines.isEmpty

/-- One flush of the incremental write logic in
process_talks_with_progress (classifier_optimized.py): recompute
should_write_header from the current state of the file, then write the
accumulated batch when it is non-empty.  Returns the new file state and
whether this flush wrote a header row. -/
def flushBatch (file : FileState) (batch : List CsvRow) : FileState × Bool :=
  let should_write_header := !fileHasContent file
  if batch.isEmpty then (file, false)
  else (write_to_csv batch file should_write_header, should_write_header)

/-- A run of successive flushes, returning the final file state and, for
each flush in order, whether it wrote a header row. -/
def runFlushes (file : FileState) (batches : List (List CsvRow)) :
    FileState × List Bool :=
  match batches with
  | [] => (file, [])
  | b :: bs =>
    let step := flushBatch file b
    let rest := runFlushes step.1 bs
    (rest.1, step.2 :: rest.2)

/-! ### Classification invoker (processors/classifier_processor.py) -/

/-- The shape of the key_phrases field of a parsed response, as far as
the normalization code distinguishes it: a string (wrapped into a
one-element list), a list of strings, some other iterable (coerced with
list(...)), or a non-iterable value, for which list(...) raises a
TypeError that escapes the inner try block and is caught by the outer
except clause with the given message. -/
inductive KeyPhrasesVal where
  | str : String → KeyPhrasesVal
  | list : List String → KeyPhrasesVal
  | iterable : List String → KeyPhrasesVal
  | notIterable : String → KeyPhrasesVal
deriving DecidableEq

/-- The fields of a successfully json-decoded response object that
get_llm_classification inspects: which of the three required keys are
present, whether the score value is an int and its value, the
explanation text, and the key_phrases value. -/
structure LLMJson where
  hasScore : Bool
  hasExplanation : Bool
  hasKeyPhrases : Bool
  scoreIsInt : Bool
  score : Int
  explanation : String
  key_phrases : KeyPhrasesVal
deriving DecidableEq

/-- The outcome of the external call and of json.loads, the two external
effects inside get_llm_classification: the API call raises, the response
content is None, the body is not valid JSON (json.JSONDecodeError), or a
decoded object. -/
inductive APIResponse where
  | raises : String → APIResponse
  | noneContent : APIResponse
  | invalidJson : String → APIResponse
  | parsed : LLMJson → APIResponse
deriving DecidableEq

/-- The Classification dataclass of models.py. -/
structure Classification where
  score : Int
  explanation : String
  key_phrases : List String
  model_used : String
deriving DecidableEq

/-- True when the decoded object passes every validation of
get_llm_classification: all three keys present, score an int in [-3, 3],
and key_phrases convertible to a list without raising. -/
def validLLMJson (j : LLMJson) : Bool :=
  j.hasScore && j.hasExplanation && j.hasKeyPhrases &&
  j.scoreIsInt && decide (-3 ≤ j.score) && decide (j.score ≤ 3) &&
  (match j.key_phrases with
   | KeyPhrasesVal.notIterable _ => false
   | _ => true)

/-- True when the invocation is a failure mode: the call raised, the
content was empty, the body was unparseable, or the decoded object fails
a validation. -/
def isFailureResponse : APIResponse → Bool
  | APIResponse.raises _ => true
  | APIResponse.noneContent => true
  | APIResponse.invalidJson _ => true
  | APIResponse.parsed j => !validLLMJson j

/-- get_llm_classification of processors/classifier_processor.py, as a
function of the outcome of its two external effects.  Every Python path
returns a Classification value (the function never raises: the inner
try catches json.JSONDecodeError and the outer try catches every other
exception, including the TypeError raised by list(...) on a non-iterable
key_phrases value). -/
def get_llm_classification (response : APIResponse) (model : String) :
    Classification :=
  match response with
  | APIResponse.raises msg =>
    { score := 0
      explanation := "Error in classification: " ++ msg
      key_phrases := ["Error in classification"]
      model_used := model }
  | APIResponse.noneContent =>
    { score := 0
      explanation := "Error: Empty response from API"
      key_phrases := ["Error in classification"]
      model_used := model }
  | APIResponse.invalidJson _ =>
    { score := 0
      explanation := "Error parsing LLM response"
      key_phrases := ["Error in classification"]
      model_used := model }
  | APIResponse.parsed j =>
    if !(j.hasScore && j.hasExplanation && j.hasKeyPhrases) then
      { score := 0
        explanation := "Error parsing LLM response"
        key_phrases := ["Error in classification"]
        model_used := model }
    else if !(j.scoreIsInt && decide (-3 ≤ j.score) && decide (j.score ≤ 3)) then
      { score := 0
        explanation := "Error parsing LLM response"
        key_phrases := ["Error in classification"]
        model_used := model }
    else
      match j.key_phrases with
      | KeyPhrasesVal.str s =>
        { score := j.score, explanation := j.explanation
          key_phrases := [s], model_used := model }
      | KeyPhrasesVal.list l =>
        { score := j.score, explanation := j.explanation
          key_phrases := l, model_used := model }
      | KeyPhrasesVal.iterable l =>
        { score := j.score, explanation := j.explanation
          key_phrases := l, model_used := model }
      | KeyPhrasesVal.notIterable msg =>
        { score := 0
          explanation := "Error in classification: " ++ msg
          key_phrases := ["Error in classification"]
          model_used := model }

/-- True when the explanation of a result starts with one of the fixed
error-sentinel texts. -/
def sentinelPrefixed (explanation : String) : Bool :=
  "Error parsing LLM response".data.isPrefixOf explanation.data ||
  "Error in classification".data.isPrefixOf explanation.data

/-- True when the explanation of a result contains one of the fixed
error-sentinel substrings; this is the is_error notion of the spec and
the test applied by the resume ledger. -/
def isErrorResult (c : Classification) : Bool :=
  error_indicators.any (fun e => containsText c.explanation e)

/-! ### Work-list selection (classifier_optimized.py,
determine_files_to_process) -/

/-- The batch-mode branch of determine_files_to_process, with files
identified by their names, random.sample taken as a parameter, and
num_talks the optional sampling count.  The Python guard is the
truthiness test args.num_talks and args.num_talks below the total file
count, so a count of zero falls through to the process-everything
branch. -/
def determine_files_to_process (sample : List String → Nat → List String)
    (all_talk_files : List String) (processed_filenames : List String)
    (num_talks : Option Nat) : List String :=
  match num_talks with
  | some k =>
    if k ≠ 0 ∧ k < all_talk_files.length then
      let available_for_sampling :=
        all_talk_files.filter (fun f => !processed_filenames.contains f)
      if available_for_sampling.length < k then available_for_sampling
      else sample available_for_sampling k
    else all_talk_files.filter (fun f => !processed_filenames.contains f)
  | none => all_talk_files.filter (fun f => !processed_filenames.contains f)

/-- The contract of random.sample(population, k) for k at most the
population size: a list of k elements of the population, drawn without
replacement. -/
def SampleContract (sample : List String → Nat → List String) : Prop :=
  ∀ (population : List String) (k : Nat), k ≤ population.length →
    (sample population k).length = k ∧
    ∀ x ∈ sample population k, x ∈ population

/-! ### Speaker-name cleaning (clean_data.py, clean_speaker_name_basic) -/

/-- The Unicode whitespace class: the characters matched by the regex
class backslash-s of the Python re module (with Unicode semantics) and
stripped by str.strip. -/
def isWS (c : Char) : Bool :=
  let n := c.toNat
  n == 32 || (9 ≤ n && n ≤ 13) || (28 ≤ n && n ≤ 31) || n == 133 ||
  n == 160 || n == 5760 || (8192 ≤ n && n ≤ 8202) || n == 8232 ||
  n == 8233 || n == 8239 || n == 8287 || n == 12288

/-- str.replace(old, new): scan left to right, replacing each
non-overlapping occurrence of the pattern.  The pattern is non-empty at
every call site. -/
def replaceAll (pat rep : List Char) (s : List Char) : List Char :=
  match pat, s with
  | _, [] => []
  | [], c :: cs => c :: cs
  | p :: pr, c :: cs =>
    if (p :: pr).isPrefixOf (c :: cs) then
      rep ++ replaceAll (p :: pr) rep ((c :: cs).drop (p :: pr).length)
    else
      c :: replaceAll (p :: pr) rep cs
termination_by s.length
decreasing_by
  · simp only [List.length_drop, List.length_cons]
    omega
  · simp

/-- re.sub of one or more whitespace characters by a single space:
each maximal whitespace run becomes one space character. -/
def collapseWS : List Char → List Char
  | [] => []
  | [c] => if isWS c then [' '] else [c]
  | a :: b :: t =>
    if isWS a && isWS b then collapseWS (b :: t)
    else (if isWS a then ' ' else a) :: collapseWS (b :: t)

/-- Strip leading whitespace (the left half of str.strip). -/
def lstripWS (l : List Char) : List Char :=
  l.dropWhile (fun c => isWS c)

/-- Strip trailing whitespace (the right half of str.strip). -/
def rstripWS (l : List Char) : List Char :=
  (l.reverse.dropWhile (fun c => isWS c)).reverse

/-- str.strip(): remove leading and trailing whitespace. -/
def stripWS (l : List Char) : List Char :=
  rstripWS (lstripWS l)

/-- clean_speaker_name_basic of clean_data.py on the character list of
the name: replace the artifact character U+00C2 followed by a
non-breaking space with a space, then U+00C2 followed by a space with a
space, then remove every remaining U+00C2, then collapse whitespace runs
to single spaces and strip the ends.  (The isinstance guard of the
Python function only concerns non-string inputs such as NaN and has no
counterpart on a typed string.) -/
def cleanBasicList (l : List Char) : List Char :=
  stripWS (collapseWS
    (replaceAll ['\u00C2'] []
      (replaceAll ['\u00C2', ' '] [' ']
        (replaceAll ['\u00C2', '\u00A0'] [' '] l))))

/-- clean_speaker_name_basic on strings. -/
def clean_speaker_name_basic (s : String) : String :=
  String.mk (cleanBasicList s.data)

/-- Normal-form property of cleaned text: every whitespace character is
a plain space. -/
def wsOnlySpace (l : List Char) : Prop :=
  ∀ c ∈ l, isWS c = true → c = ' '

/-- Normal-form property of cleaned text: no two adjacent characters
are both whitespace. -/
def noAdjWS (l : List Char) : Prop :=
  List.Chain' (fun a b => ¬(isWS a = true ∧ isWS b = true)) l

/-! ### Fuzzy name-deduplication map (clean_data.py,
build_name_standardization_map)

The similarity metric fuzz.token_sort_ratio comes from the external
thefuzz package (whose backend is not pinned by the repository), so the
map builder is embedded as a function of the metric.  Python compares
strings by code points, so the sorted builtin and min and max on names
are modelled with an explicit lexicographic comparison on the character
lists. -/

/-- Code-point lexicographic strict order on character lists: the
comparison the Python operators on str perform. -/
def lexLt : List Char → List Char → Bool
  | [], [] => false
  | [], _ :: _ => true
  | _ :: _, [] => false
  | a :: as, b :: bs =>
    if a.toNat < b.toNat then true
    else if b.toNat < a.toNat then false
    else lexLt as bs

/-- Python comparison a < b on strings. -/
def strLtB (a b : String) : Bool :=
  lexLt a.data b.data

/-- Python comparison a <= b on strings. -/
def strLeB (a b : String) : Bool :=
  strLtB a b || a == b

/-- The Python builtin min on two names. -/
def min_name (a b : String) : String :=
  if strLeB a b then a else b

/-- The Python builtin max on two names. -/
def max_name (a b : String) : String :=
  if strLtB a b then b else a

/-- Lookup in the name map (Python dict indexing; every key that the
source reads is present, and a missing key defaults to the name
itself). -/
def lookupD (m : List (String × String)) (k : String) : String :=
  match m with
  | [] => k
  | (a, b) :: rest => if a = k then b else lookupD rest k

/-- Assignment name_map[k] = v on a dict whose key set already contains
k: rewrite the value of every entry with key k, leaving keys
unchanged. -/
def setk (m : List (String × String)) (k v : String) :
    List (String × String) :=
  match m with
  | [] => []
  | (a, b) :: rest =>
    (if a = k then (k, v) else (a, b)) :: setk rest k v

/-- The body of the pair loop of build_name_standardization_map for one
pair with similarity at or above the threshold: choose the
alphabetically first of the pair as the standard, point the variant at
the standard of the standard when the standard is itself a variant, and
then force the variant to point at the standard when it does not
already. -/
def mergeEdge (m : List (String × String)) (name1 name2 : String) :
    List (String × String) :=
  let standard_name := min_name name1 name2
  let variant_name := max_name name1 name2
  let m1 :=
    if lookupD m standard_name ≠ standard_name then
      setk m variant_name (lookupD m standard_name)
    else
      setk m variant_name standard_name
  if lookupD m1 variant_name ≠ standard_name then
    setk m1 variant_name standard_name
  else m1

/-- itertools.combinations(l, 2) in the iteration order of the source:
every pair of distinct positions, earlier element first. -/
def pairsOf : List String → List (String × String)
  | [] => []
  | x :: xs => xs.map (fun y => (x, y)) ++ pairsOf xs

/-- Insertion of one element into a sorted list (helper of the model of
the Python sorted builtin). -/
def insertSorted (a : String) : List String → List String
  | [] => [a]
  | b :: t => if strLeB a b then a :: b :: t else b :: insertSorted a t

/-- The Python sorted builtin on a list of names, modelled as a stable
insertion sort (any comparison sort agrees on the duplicate-free name
lists the source feeds it). -/
def sortNames : List String → List String
  | [] => []
  | a :: t => insertSorted a (sortNames t)

/-- One step of the transitive-closure pass for one name: when the name
maps to x and x maps further to y, and the name is not itself a root,
remap the name to y. -/
def closureStep (m : List (String × String)) (name : String) :
    List (String × String) :=
  if lookupD m name ≠ lookupD m (lookupD m name) then
    if lookupD m name ≠ name then
      setk m name (lookupD m (lookupD m name))
    else m
  else m

/-- One full pass of the transitive-closure loop over the sorted
names. -/
def closurePass (sorted_names : List String)
    (m : List (String × String)) : List (String × String) :=
  sorted_names.foldl closureStep m

/-- The while loop of the closure resolution: at most n passes, stopping
early when a pass changes nothing.  Running all n passes gives the same
map, because a pass that changes nothing is the identity and so is every
pass after it; the embedding therefore runs exactly n passes. -/
def closurePasses : Nat → List String → List (String × String) →
    List (String × String)
  | 0, _, m => m
  | n + 1, sorted_names, m => closurePasses n sorted_names (closurePass sorted_names m)

/-- build_name_standardization_map of clean_data.py: initialize every
name to itself, walk the pairs of the sorted name list and merge every
pair whose similarity reaches the threshold, then resolve transitive
mappings with at most one pass per unique name. -/
def build_name_standardization_map (sim : String → String → Nat)
    (unique_names : List String) (threshold : Nat) :
    List (String × String) :=
  let name_map := unique_names.map (fun n => (n, n))
  let sorted_unique_names := sortNames unique_names
  let merged :=
    (pairsOf sorted_unique_names).foldl
      (fun m p => if threshold ≤ sim p.1 p.2 then mergeEdge m p.1 p.2 else m)
      name_map
  closurePasses unique_names.length sorted_unique_names merged

/-- A concrete symmetric similarity table: the bridge name (zed) is
similar to both of the other two names, which are not similar to each
other.  Such a configuration is realizable by token-sort ratios, for
example when both shorter names are one-character edits of the longer
one at different positions. -/
def simCex (a b : String) : Nat :=
  if (a = "alice" ∧ b = "zed") ∨ (a = "zed" ∧ b = "alice") then 95
  else if (a = "bob" ∧ b = "zed") ∨ (a = "zed" ∧ b = "bob") then 95
  else 60

/-- A concrete symmetric similarity table whose bridge name (alice) is
the lexicographically smallest of the three names. -/
def simW (a b : String) : Nat :=
  if (a = "alice" ∧ b = "bob") ∨ (a = "bob" ∧ b = "alice") then 95
  else if (a = "alice" ∧ b = "zed") ∨ (a = "zed" ∧ b = "alice") then 95
  else 60

/-- Invariant of the name map relative to a key set K: every value is
lexicographically at most its key and belongs to K. -/
def mapInvK (K : List String) (m : List (String × String)) : Prop :=
  ∀ p ∈ m, strLeB p.2 p.1 = true ∧ p.2 ∈ K

/-! ## Theorems

### The resume ledger -/

/-- Membership in the successful-rows list accumulated by the ledger
loop: a row is carried forward exactly when it was already in the
accumulator or occurs in the input and has no error sentinel. -/
theorem mem_snd_foldl_loadStep (rows : List CsvRow)
    (acc : List String × List CsvRow) (r : CsvRow) :
    r ∈ (rows.foldl loadStep acc).2 ↔
      r ∈ acc.2 ∨ (r ∈ rows ∧ isErrorRow r = false) := by
  induction rows generalizing acc with
  | nil => simp
  | cons row rest ih =>
    rw [List.foldl_cons, ih]
    cases h : isErrorRow row with
    | true =>
      simp only [loadStep, h, if_true, List.mem_cons]
      constructor
      · rintro (h1 | ⟨h2, h3⟩)
        · exact Or.inl h1
        · exact Or.inr ⟨Or.inr h2, h3⟩
      · rintro (h1 | ⟨h2 | h2, h3⟩)
        · exact Or.inl h1
        · subst h2; simp [h] at h3
        · exact Or.inr ⟨h2, h3⟩
    | false =>
      simp only [loadStep, h, Bool.false_eq_true, if_false, List.mem_append,
        List.mem_cons, List.not_mem_nil, or_false]
      constructor
      · rintro ((h1 | h1) | ⟨h2, h3⟩)
        · exact Or.inl h1
        · subst h1; exact Or.inr ⟨Or.inl rfl, h⟩
        · exact Or.inr ⟨Or.inr h2, h3⟩
      · rintro (h1 | ⟨h2 | h2, h3⟩)
        · exact Or.inl (Or.inl h1)
        · subst h2; exact Or.inl (Or.inr rfl)
        · exact Or.inr ⟨h2, h3⟩

/-- Membership in the completed-identifier set accumulated by the ledger
loop: an identifier is completed exactly when it was already in the
accumulator or is the filename field of some sentinel-free input row. -/
theorem mem_fst_foldl_loadStep (rows : List CsvRow)
    (acc : List String × List CsvRow) (fn : String) :
    fn ∈ (rows.foldl loadStep acc).1 ↔
      fn ∈ acc.1 ∨
        ∃ r ∈ rows, isErrorRow r = false ∧ rowGet r "filename" "" = fn := by
  induction rows generalizing acc with
  | nil => simp
  | cons row rest ih =>
    rw [List.foldl_cons, ih]
    cases h : isErrorRow row with
    | true =>
      simp only [loadStep, h, if_true, List.mem_cons]
      constructor
      · rintro (h1 | ⟨r, h2, h3, h4⟩)
        · exact Or.inl h1
        · exact Or.inr ⟨r, Or.inr h2, h3, h4⟩
      · rintro (h1 | ⟨r, h2 | h2, h3, h4⟩)
        · exact Or.inl h1
        · subst h2; simp [h] at h3
        · exact Or.inr ⟨r, h2, h3, h4⟩
    | false =>
      simp only [loadStep, h, Bool.false_eq_true, if_false,
        List.mem_insert_iff, List.mem_cons]
      constructor
      · rintro ((h1 | h1) | ⟨r, h2, h3, h4⟩)
        · exact Or.inr ⟨row, Or.inl rfl, h, h1.symm⟩
        · exact Or.inl h1
        · exact Or.inr ⟨r, Or.inr h2, h3, h4⟩
      · rintro (h1 | ⟨r, h2 | h2, h3, h4⟩)
        · exact Or.inl (Or.inr h1)
        · subst h2; exact Or.inl (Or.inl h4.symm)
        · exact Or.inr ⟨r, h2, h3, h4⟩

/-- Claim C1, counterexample: a result row with the fixed explanation
File content extraction failed contains neither error sentinel, so the
resume ledger does NOT classify it as an error row: at this concrete
input its filename lands in completed_identifiers and the row itself in
carry_forward_rows, contradicting the claimed exclusion. -/
theorem C1_counterexample :
    rowGet (extraction_failed_row "2010-04-faith.html" "2010" "04"
        "2010-04" "faith" "John Doe" "m1") "explanation" ""
      = "File content extraction failed" ∧
    "2010-04-faith.html" ∈
      (load_processed_talks_from_csv
        [extraction_failed_row "2010-04-faith.html" "2010" "04"
          "2010-04" "faith" "John Doe" "m1"]).1 ∧
    extraction_failed_row "2010-04-faith.html" "2010" "04"
        "2010-04" "faith" "John Doe" "m1" ∈
      (load_processed_talks_from_csv
        [extraction_failed_row "2010-04-faith.html" "2010" "04"
          "2010-04" "faith" "John Doe" "m1"]).2 := by
  refine ⟨rfl, ?_, ?_⟩ <;> decide

/-- Claim C1, amended: for every result row whose explanation is the
fixed string File content extraction failed, the resume ledger
classifies the row as successful, not as an error row: its filename is
included in completed_identifiers and the row is included in
carry_forward_rows, so the item is not eligible for retry on the next
resumed run. -/
theorem C1_amended_extraction_rows_treated_successful
    (rows : List CsvRow) (row : CsvRow) (hmem : row ∈ rows)
    (hexp : rowGet row "explanation" "" = "File content extraction failed") :
    rowGet row "filename" "" ∈ (load_processed_talks_from_csv rows).1 ∧
    row ∈ (load_processed_talks_from_csv rows).2 := by
  have herr : isErrorRow row = false := by
    simp only [isErrorRow, hexp]; decide
  constructor
  · exact (mem_fst_foldl_loadStep rows ([], []) _).mpr
      (Or.inr ⟨row, hmem, herr, rfl⟩)
  · exact (mem_snd_foldl_loadStep rows ([], []) row).mpr
      (Or.inr ⟨hmem, herr⟩)

/-- Claim C1, witness of the amended theorem at a concrete row. -/
theorem C1_witness :
    "a.html" ∈
      (load_processed_talks_from_csv
        [[("filename", "a.html"),
          ("explanation", "File content extraction failed")]]).1 ∧
    [("filename", "a.html"),
     ("explanation", "File content extraction failed")] ∈
      (load_processed_talks_from_csv
        [[("filename", "a.html"),
          ("explanation", "File content extraction failed")]]).2 :=
  C1_amended_extraction_rows_treated_successful
    [[("filename", "a.html"),
      ("explanation", "File content extraction failed")]]
    [("filename", "a.html"),
     ("explanation", "File content extraction failed")]
    (by simp) (by rfl)

/-- Claim C5, counterexample: a row without a filename field is not
dropped by load_processed_talks_from_csv in processors/csv_manager.py:
at this concrete input the empty-string identifier joins
completed_identifiers and the row joins carry_forward_rows. -/
theorem C5_counterexample :
    rowGet [("explanation", "Balanced treatment"), ("score", "2")]
        "filename" "" = "" ∧
    "" ∈ (load_processed_talks_from_csv
        [[("explanation", "Balanced treatment"), ("score", "2")]]).1 ∧
    [("explanation", "Balanced treatment"), ("score", "2")] ∈
      (load_processed_talks_from_csv
        [[("explanation", "Balanced treatment"), ("score", "2")]]).2 := by
  refine ⟨rfl, ?_, ?_⟩ <;> decide

/-- Claim C5, amended: a row is classified as successful if and only if
its explanation field contains none of the fixed error-sentinel
substrings; rows whose filename field is missing or empty are NOT
dropped by the csv_manager loader: they are recorded under the
empty-string identifier and carried forward.  (The legacy loader in
classifier.py is the one that drops such rows.) -/
theorem C5_amended_characterization (rows : List CsvRow) (r : CsvRow)
    (fn : String) :
    (r ∈ (load_processed_talks_from_csv rows).2 ↔
      r ∈ rows ∧ isErrorRow r = false) ∧
    (fn ∈ (load_processed_talks_from_csv rows).1 ↔
      ∃ row ∈ rows, isErrorRow row = false ∧
        rowGet row "filename" "" = fn) := by
  constructor
  · simpa using mem_snd_foldl_loadStep rows ([], []) r
  · simpa using mem_fst_foldl_loadStep rows ([], []) fn

/-- Claim C5, witness of the amended characterization at a concrete
table. -/
theorem C5_witness :
    [("explanation", "ok")] ∈
      (load_processed_talks_from_csv [[("explanation", "ok")]]).2 ↔
    [("explanation", "ok")] ∈ [[("explanation", "ok")]] ∧
      isErrorRow [("explanation", "ok")] = false :=
  (C5_amended_characterization [[("explanation", "ok")]]
    [("explanation", "ok")] "").1

/-! ### The incremental writer -/

/-- A flush of a non-empty batch always leaves the file existing with
content. -/
theorem fileHasContent_flushBatch (file : FileState) (batch : List CsvRow)
    (h : batch ≠ []) : fileHasContent (flushBatch file batch).1 = true := by
  have hne : batch.isEmpty = false := by simp [List.isEmpty_iff, h]
  cases hc : fileHasContent file with
  | false =>
    have hfl : flushBatch file batch =
        (some (CsvLine.header :: batch.map CsvLine.row), true) := by
      simp [flushBatch, hc, hne, write_to_csv]
    rw [hfl]; simp [fileHasContent]
  | true =>
    have hfl : flushBatch file batch =
        (some (file.getD [] ++ batch.map CsvLine.row), false) := by
      simp [flushBatch, hc, hne, write_to_csv]
    rw [hfl]; simp [fileHasContent, List.isEmpty_iff, h]

/-- Once the file has content, a run of non-empty flushes writes no
further header. -/
theorem runFlushes_replicate_false (bs : List (List CsvRow))
    (file : FileState) (hc : fileHasContent file = true)
    (hb : ∀ b ∈ bs, b ≠ []) :
    (runFlushes file bs).2 = List.replicate bs.length false := by
  induction bs generalizing file with
  | nil => simp [runFlushes]
  | cons b t ih =>
    have hbne : b ≠ [] := hb b (by simp)
    have hbe : b.isEmpty = false := by simp [List.isEmpty_iff, hbne]
    have hstep2 : (flushBatch file b).2 = false := by
      simp [flushBatch, hc, hbe]
    have hstate : fileHasContent (flushBatch file b).1 = true :=
      fileHasContent_flushBatch _ _ hbne
    simp only [runFlushes, List.length_cons, List.replicate_succ]
    rw [hstep2, ih _ hstate (fun x hx => hb x (by simp [hx]))]

/-- Claim C3: a flush writes a header row if and only if, at the moment
of that flush, the target file does not exist or has size zero (the
decision is recomputed from the file state at every flush); and for a
run of non-empty flushes starting from a nonexistent-or-empty file,
exactly one flush writes the header and it is the first one. -/
theorem C3_header_written_iff_file_empty :
    (∀ (file : FileState) (batch : List CsvRow), batch ≠ [] →
      ((flushBatch file batch).2 = true ↔ fileHasContent file = false)) ∧
    (∀ (file0 : FileState) (batches : List (List CsvRow)),
      fileHasContent file0 = false → (∀ b ∈ batches, b ≠ []) →
      batches ≠ [] →
      (runFlushes file0 batches).2 =
        true :: List.replicate (batches.length - 1) false) := by
  constructor
  · intro file batch h
    have hne : batch.isEmpty = false := by simp [List.isEmpty_iff, h]
    cases hc : fileHasContent file <;> simp [flushBatch, hc, hne]
  · intro file0 batches hc hb hne
    cases batches with
    | nil => exact absurd rfl hne
    | cons b t =>
      have hbne : b ≠ [] := hb b (by simp)
      have hbe : b.isEmpty = false := by simp [List.isEmpty_iff, hbne]
      have h2 : (flushBatch file0 b).2 = true := by
        simp [flushBatch, hc, hbe]
      have hstate := fileHasContent_flushBatch file0 b hbne
      simp only [runFlushes, List.length_cons, Nat.add_sub_cancel]
      rw [h2, runFlushes_replicate_false t _ hstate
        (fun x hx => hb x (by simp [hx]))]

/-- Claim C3, witness: a flush against a file that already has a header
line writes none, and a fresh two-flush run writes exactly one header,
on the first flush. -/
theorem C3_witness :
    ((flushBatch (some [CsvLine.header]) [[("filename", "x")]]).2 = true ↔
      fileHasContent (some [CsvLine.header]) = false) ∧
    (runFlushes none [[[("filename", "x")]], [[("filename", "y")]]]).2 =
      true :: List.replicate 1 false :=
  ⟨C3_header_written_iff_file_empty.1 (some [CsvLine.header])
      [[("filename", "x")]] (by simp),
   C3_header_written_iff_file_empty.2 none
      [[[("filename", "x")]], [[("filename", "y")]]] rfl (by decide)
      (by simp)⟩

/-- Claim C8: a write_to_csv call with write_header true and non-empty
data opens the file in overwrite mode, leaving exactly the header plus
the given rows and destroying any previous content; a call with
write_header false appends the rows to the existing content. -/
theorem C8_write_header_truncates (data : List CsvRow) (file : FileState)
    (h : data ≠ []) :
    write_to_csv data file true =
      some (CsvLine.header :: data.map CsvLine.row) ∧
    write_to_csv data file false =
      some (file.getD [] ++ data.map CsvLine.row) := by
  have hne : data.isEmpty = false := by simp [List.isEmpty_iff, h]
  simp [write_to_csv, hne]

/-- Claim C8, witness: writing with a header over a file holding an old
row erases the old row; appending preserves it. -/
theorem C8_witness :
    write_to_csv [[("filename", "z")]]
        (some [CsvLine.row [("filename", "old")]]) true =
      some [CsvLine.header, CsvLine.row [("filename", "z")]] ∧
    write_to_csv [[("filename", "z")]]
        (some [CsvLine.row [("filename", "old")]]) false =
      some [CsvLine.row [("filename", "old")],
            CsvLine.row [("filename", "z")]] :=
  C8_write_header_truncates [[("filename", "z")]]
    (some [CsvLine.row [("filename", "old")]]) (by simp)

/-! ### The classification invoker -/

/-- A prefix of a list is still a prefix after appending on the right. -/
theorem isPrefixOf_append_left {p l : List Char} (t : List Char)
    (h : p.isPrefixOf l = true) : p.isPrefixOf (l ++ t) = true := by
  rw [ List.isPrefixOf_iff_prefix] at h ⊢
  exact h.trans (List.prefix_append l t)

/-- A pattern that is a prefix of a list is contained in it. -/
theorem listContains_of_isPrefixOf {s p : List Char}
    (h : p.isPrefixOf s = true) : listContains s p = true := by
  unfold listContains
  rw [h, Bool.true_or]

/-- The explanation built by the outer exception handler both starts
with and contains the sentinel Error in classification. -/
theorem sentinel_explanation_append (msg : String) :
    sentinelPrefixed ("Error in classification: " ++ msg) = true ∧
    containsText ("Error in classification: " ++ msg)
      "Error in classification" = true := by
  have h0 : ("Error in classification".data).isPrefixOf
      ("Error in classification: ".data) = true := by decide
  have h1 : ("Error in classification".data).isPrefixOf
      (("Error in classification: " ++ msg).data) = true := by
    rw [String.data_append]
    exact isPrefixOf_append_left _ h0
  constructor
  · simp [sentinelPrefixed, h1]
  · exact listContains_of_isPrefixOf h1

/-- Claim C2, counterexample: the empty-response failure mode (message
content None) yields score 0 but the fixed explanation Error: Empty
response from API, which neither starts with nor contains either
error-sentinel text, contradicting the claim that every failure mode
carries a sentinel prefix. -/
theorem C2_counterexample :
    isFailureResponse APIResponse.noneContent = true ∧
    (get_llm_classification APIResponse.noneContent
      "o4-mini-2025-04-16").score = 0 ∧
    (get_llm_classification APIResponse.noneContent
        "o4-mini-2025-04-16").explanation =
      "Error: Empty response from API" ∧
    sentinelPrefixed (get_llm_classification APIResponse.noneContent
        "o4-mini-2025-04-16").explanation = false ∧
    isErrorResult (get_llm_classification APIResponse.noneContent
        "o4-mini-2025-04-16") = false := by
  refine ⟨rfl, rfl, rfl, ?_, ?_⟩ <;> decide

/-- Claim C2, amended: the invoker always returns a Classification value
(the embedding is total because the inner handler catches the JSON
decode error and the outer handler every other exception), and every
failure mode except the empty-response case yields score 0 with an
explanation carrying one of the fixed error-sentinel prefixes; the
empty-response case yields score 0 with the fixed non-sentinel
explanation Error: Empty response from API. -/
theorem C2_amended_failures_carry_sentinel
    (response : APIResponse) (model : String)
    (hfail : isFailureResponse response = true)
    (hne : response ≠ APIResponse.noneContent) :
    (get_llm_classification response model).score = 0 ∧
    sentinelPrefixed
      (get_llm_classification response model).explanation = true := by
  have hsent : sentinelPrefixed "Error parsing LLM response" = true := by
    decide
  cases response with
  | raises msg =>
    exact ⟨rfl, (sentinel_explanation_append msg).1⟩
  | noneContent => exact absurd rfl hne
  | invalidJson msg => exact ⟨rfl, hsent⟩
  | parsed j =>
    by_cases c1 : (j.hasScore && j.hasExplanation && j.hasKeyPhrases) = true
    · by_cases c2 : (j.scoreIsInt && decide (-3 ≤ j.score) &&
          decide (j.score ≤ 3)) = true
      · cases hkp : j.key_phrases with
        | str s =>
          exfalso
          simp [isFailureResponse, validLLMJson, hkp, c1, c2] at hfail
        | list l =>
          exfalso
          simp [isFailureResponse, validLLMJson, hkp, c1, c2] at hfail
        | iterable l =>
          exfalso
          simp [isFailureResponse, validLLMJson, hkp, c1, c2] at hfail
        | notIterable msg =>
          have heq : get_llm_classification (APIResponse.parsed j) model =
              { score := 0
                explanation := "Error in classification: " ++ msg
                key_phrases := ["Error in classification"]
                model_used := model } := by
            simp [get_llm_classification, c1, c2, hkp]
          rw [heq]
          exact ⟨rfl, (sentinel_explanation_append msg).1⟩
      · have c2f : (j.scoreIsInt && decide (-3 ≤ j.score) &&
            decide (j.score ≤ 3)) = false := by
          revert c2; cases (j.scoreIsInt && decide (-3 ≤ j.score) &&
            decide (j.score ≤ 3)) <;> simp
        have heq : get_llm_classification (APIResponse.parsed j) model =
            { score := 0
              explanation := "Error parsing LLM response"
              key_phrases := ["Error in classification"]
              model_used := model } := by
          simp [get_llm_classification, c1, c2f]
        rw [heq]
        exact ⟨rfl, hsent⟩
    · have c1f : (j.hasScore && j.hasExplanation && j.hasKeyPhrases)
          = false := by
        revert c1; cases (j.hasScore && j.hasExplanation &&
          j.hasKeyPhrases) <;> simp
      have heq : get_llm_classification (APIResponse.parsed j) model =
          { score := 0
            explanation := "Error parsing LLM response"
            key_phrases := ["Error in classification"]
            model_used := model } := by
        simp [get_llm_classification, c1f]
      rw [heq]
      exact ⟨rfl, hsent⟩

/-- Claim C2, witness of the amended theorem at a concrete unparseable
response. -/
theorem C2_witness :
    (get_llm_classification (APIResponse.invalidJson "bad body")
      "o4-mini-2025-04-16").score = 0 ∧
    sentinelPrefixed
      (get_llm_classification (APIResponse.invalidJson "bad body")
        "o4-mini-2025-04-16").explanation = true :=
  C2_amended_failures_carry_sentinel (APIResponse.invalidJson "bad body")
    "o4-mini-2025-04-16" rfl (by simp)

/-- Claim C6: every Classification returned by the invoker is either an
error result (sentinel in the explanation, score 0) or has an integer
score within [-3, 3]; and whenever the upstream score is not an integer
or is out of range, the returned result is an error result with score
0, never a non-error result. -/
theorem C6_score_bound (response : APIResponse) (model : String) :
    ((isErrorResult (get_llm_classification response model) = true ∧
        (get_llm_classification response model).score = 0) ∨
      (-3 ≤ (get_llm_classification response model).score ∧
        (get_llm_classification response model).score ≤ 3)) ∧
    (∀ j : LLMJson, response = APIResponse.parsed j →
      (j.scoreIsInt = false ∨ j.score < -3 ∨ 3 < j.score) →
      isErrorResult (get_llm_classification response model) = true ∧
      (get_llm_classification response model).score = 0) := by
  have hErrEq : ∀ c : Classification, isErrorResult c =
      (containsText c.explanation "Error parsing LLM response" ||
        containsText c.explanation "Error in classification") := by
    intro c; simp [isErrorResult, error_indicators]
  have hparse : isErrorResult
      { score := (0 : Int), explanation := "Error parsing LLM response",
        key_phrases := ["Error in classification"],
        model_used := model } = true := by
    rw [hErrEq]
    show (containsText "Error parsing LLM response"
        "Error parsing LLM response" ||
      containsText "Error parsing LLM response"
        "Error in classification") = true
    decide
  have hclass : ∀ msg, isErrorResult
      { score := (0 : Int),
        explanation := "Error in classification: " ++ msg,
        key_phrases := ["Error in classification"],
        model_used := model } = true := by
    intro msg
    rw [hErrEq]
    show (containsText ("Error in classification: " ++ msg)
        "Error parsing LLM response" ||
      containsText ("Error in classification: " ++ msg)
        "Error in classification") = true
    rw [(sentinel_explanation_append msg).2, Bool.or_true]
  cases response with
  | raises msg =>
    exact ⟨Or.inl ⟨hclass msg, rfl⟩, fun j hj => by cases hj⟩
  | noneContent =>
    exact ⟨Or.inr (show (-3 : Int) ≤ 0 ∧ (0 : Int) ≤ 3 by decide),
      fun j hj => by cases hj⟩
  | invalidJson msg =>
    exact ⟨Or.inl ⟨hparse, rfl⟩, fun j hj => by cases hj⟩
  | parsed j =>
    by_cases c1 : (j.hasScore && j.hasExplanation && j.hasKeyPhrases) = true
    · by_cases c2 : (j.scoreIsInt && decide (-3 ≤ j.score) &&
          decide (j.score ≤ 3)) = true
      · have c2p : (j.scoreIsInt = true ∧ -3 ≤ j.score) ∧ j.score ≤ 3 := by
          simpa only [Bool.and_eq_true, decide_eq_true_eq] using c2
        cases hkp : j.key_phrases with
        | str s =>
          have heq : get_llm_classification (APIResponse.parsed j) model =
              { score := j.score, explanation := j.explanation
                key_phrases := [s], model_used := model } := by
            simp [get_llm_classification, c1, c2, hkp]
          refine ⟨Or.inr ⟨?_, ?_⟩, ?_⟩
          · rw [heq]; exact c2p.1.2
          · rw [heq]; exact c2p.2
          · intro j' hj hbad
            injection hj with hjj
            subst hjj
            exfalso
            rcases hbad with hb | hb | hb
            · rw [hb] at c2p; exact Bool.noConfusion c2p.1.1
            · have := c2p.1.2; omega
            · have := c2p.2; omega
        | list l =>
          have heq : get_llm_classification (APIResponse.parsed j) model =
              { score := j.score, explanation := j.explanation
                key_phrases := l, model_used := model } := by
            simp [get_llm_classification, c1, c2, hkp]
          refine ⟨Or.inr ⟨?_, ?_⟩, ?_⟩
          · rw [heq]; exact c2p.1.2
          · rw [heq]; exact c2p.2
          · intro j' hj hbad
            injection hj with hjj
            subst hjj
            exfalso
            rcases hbad with hb | hb | hb
            · rw [hb] at c2p; exact Bool.noConfusion c2p.1.1
            · have := c2p.1.2; omega
            · have := c2p.2; omega
        | iterable l =>
          have heq : get_llm_classification (APIResponse.parsed j) model =
              { score := j.score, explanation := j.explanation
                key_phrases := l, model_used := model } := by
            simp [get_llm_classification, c1, c2, hkp]
          refine ⟨Or.inr ⟨?_, ?_⟩, ?_⟩
          · rw [heq]; exact c2p.1.2
          · rw [heq]; exact c2p.2
          · intro j' hj hbad
            injection hj with hjj
            subst hjj
            exfalso
            rcases hbad with hb | hb | hb
            · rw [hb] at c2p; exact Bool.noConfusion c2p.1.1
            · have := c2p.1.2; omega
            · have := c2p.2; omega
        | notIterable msg =>
          have heq : get_llm_classification (APIResponse.parsed j) model =
              { score := 0
                explanation := "Error in classification: " ++ msg
                key_phrases := ["Error in classification"]
                model_used := model } := by
            simp [get_llm_classification, c1, c2, hkp]
          rw [heq]
          exact ⟨Or.inl ⟨hclass msg, rfl⟩, fun j' hj hbad => ⟨hclass msg, rfl⟩⟩
      · have c2f : (j.scoreIsInt && decide (-3 ≤ j.score) &&
            decide (j.score ≤ 3)) = false := by
          revert c2; cases (j.scoreIsInt && decide (-3 ≤ j.score) &&
            decide (j.score ≤ 3)) <;> simp
        have heq : get_llm_classification (APIResponse.parsed j) model =
            { score := 0
              explanation := "Error parsing LLM response"
              key_phrases := ["Error in classification"]
              model_used := model } := by
          simp [get_llm_classification, c1, c2f]
        rw [heq]
        exact ⟨Or.inl ⟨hparse, rfl⟩, fun j' hj hbad => ⟨hparse, rfl⟩⟩
    · have c1f : (j.hasScore && j.hasExplanation && j.hasKeyPhrases)
          = false := by
        revert c1; cases (j.hasScore && j.hasExplanation &&
          j.hasKeyPhrases) <;> simp
      have heq : get_llm_classification (APIResponse.parsed j) model =
          { score := 0
            explanation := "Error parsing LLM response"
            key_phrases := ["Error in classification"]
            model_used := model } := by
        simp [get_llm_classification, c1f]
      rw [heq]
      exact ⟨Or.inl ⟨hparse, rfl⟩, fun j' hj hbad => ⟨hparse, rfl⟩⟩

/-- Claim C6, witness: a response whose score field is the out-of-range
integer 7 comes back as an error result with score 0. -/
theorem C6_witness :
    isErrorResult (get_llm_classification
      (APIResponse.parsed
        { hasScore := true, hasExplanation := true, hasKeyPhrases := true
          scoreIsInt := true, score := 7, explanation := "great"
          key_phrases := KeyPhrasesVal.list ["grace"] }) "m") = true ∧
    (get_llm_classification
      (APIResponse.parsed
        { hasScore := true, hasExplanation := true, hasKeyPhrases := true
          scoreIsInt := true, score := 7, explanation := "great"
          key_phrases := KeyPhrasesVal.list ["grace"] }) "m").score = 0 :=
  (C6_score_bound
    (APIResponse.parsed
      { hasScore := true, hasExplanation := true, hasKeyPhrases := true
        scoreIsInt := true, score := 7, explanation := "great"
        key_phrases := KeyPhrasesVal.list ["grace"] }) "m").2
    { hasScore := true, hasExplanation := true, hasKeyPhrases := true
      scoreIsInt := true, score := 7, explanation := "great"
      key_phrases := KeyPhrasesVal.list ["grace"] }
    rfl (Or.inr (Or.inr (by decide)))

/-! ### Work-list selection -/

/-- Elements of the unprocessed pool are not already-completed
identifiers. -/
theorem not_processed_of_mem_pool (all_talk_files processed_filenames :
    List String) :
    ∀ f ∈ all_talk_files.filter
      (fun g => !processed_filenames.contains g),
      f ∉ processed_filenames := by
  intro f hf hmem
  have h2 := List.of_mem_filter hf
  rw [Bool.not_eq_true'] at h2
  have h3 : processed_filenames.contains f = true := List.elem_iff.mpr hmem
  rw [h2] at h3
  exact Bool.noConfusion h3

/-- Claim C7, counterexample: the guard of determine_files_to_process is
the Python truthiness test args.num_talks, so a requested count of zero
with a non-empty unprocessed pool falls through to the process-everything
branch and the run processes the whole pool instead of exactly zero
items; the claim as stated is false. -/
theorem C7_counterexample :
    ¬ (∀ (sample : List String → Nat → List String),
        SampleContract sample →
        ∀ (all_talk_files processed_filenames : List String) (k : Nat),
          k ≤ (all_talk_files.filter
            (fun f => !processed_filenames.contains f)).length →
          (determine_files_to_process sample all_talk_files
            processed_filenames (some k)).length = k ∧
          ∀ f ∈ determine_files_to_process sample all_talk_files
            processed_filenames (some k), f ∉ processed_filenames) := by
  intro h
  have hc : SampleContract (fun l n => l.take n) := by
    intro population k hk
    exact ⟨List.length_take_of_le hk, fun x hx => List.mem_of_mem_take hx⟩
  have h2 := h (fun l n => l.take n) hc ["a.html"] [] 0 (Nat.zero_le _)
  exact absurd h2.1 (by decide)

/-- Claim C7, amended: for every requested count k of at least one, when
the unprocessed pool (the files whose names are not already completed,
filtered before any sampling) has at least k items, the selected
work-list has exactly k items, none of which is an already-completed
identifier; a requested count of zero is treated as no limit and selects
the whole unprocessed pool. -/
theorem C7_amended_filter_then_sample
    (sample : List String → Nat → List String) (hs : SampleContract sample)
    (all_talk_files processed_filenames : List String) (k : Nat)
    (hk1 : 1 ≤ k)
    (hk : k ≤ (all_talk_files.filter
      (fun f => !processed_filenames.contains f)).length) :
    (determine_files_to_process sample all_talk_files processed_filenames
      (some k)).length = k ∧
    ∀ f ∈ determine_files_to_process sample all_talk_files
      processed_filenames (some k), f ∉ processed_filenames := by
  have hunf : determine_files_to_process sample all_talk_files
      processed_filenames (some k) =
      if k ≠ 0 ∧ k < all_talk_files.length then
        if (all_talk_files.filter
            (fun f => !processed_filenames.contains f)).length < k then
          all_talk_files.filter (fun f => !processed_filenames.contains f)
        else sample (all_talk_files.filter
          (fun f => !processed_filenames.contains f)) k
      else all_talk_files.filter
        (fun f => !processed_filenames.contains f) := rfl
  have hlen_le : (all_talk_files.filter
      (fun f => !processed_filenames.contains f)).length ≤
      all_talk_files.length := List.length_filter_le _ _
  by_cases hcase : k < all_talk_files.length
  · have hguard : k ≠ 0 ∧ k < all_talk_files.length := ⟨by omega, hcase⟩
    have hin : ¬ ((all_talk_files.filter
        (fun f => !processed_filenames.contains f)).length < k) := by
      omega
    have hsamp := hs (all_talk_files.filter
      (fun f => !processed_filenames.contains f)) k hk
    rw [hunf, if_pos hguard, if_neg hin]
    exact ⟨hsamp.1, fun f hf =>
      not_processed_of_mem_pool all_talk_files processed_filenames f
        (hsamp.2 f hf)⟩
  · have hguard : ¬ (k ≠ 0 ∧ k < all_talk_files.length) := by
      intro hg; exact absurd hg.2 hcase
    rw [hunf, if_neg hguard]
    refine ⟨by omega, not_processed_of_mem_pool all_talk_files
      processed_filenames⟩

/-- Claim C7, witness of the amended theorem: requesting one talk from a
two-file directory with one completed file selects exactly the one
unprocessed file. -/
theorem C7_witness :
    (determine_files_to_process (fun l n => l.take n) ["a.html", "b.html"]
      ["b.html"] (some 1)).length = 1 ∧
    ∀ f ∈ determine_files_to_process (fun l n => l.take n)
      ["a.html", "b.html"] ["b.html"] (some 1), f ∉ ["b.html"] :=
  C7_amended_filter_then_sample (fun l n => l.take n)
    (fun population k hk =>
      ⟨List.length_take_of_le hk, fun x hx => List.mem_of_mem_take hx⟩)
    ["a.html", "b.html"] ["b.html"] 1 (by decide) (by decide)

/-! ### Speaker-name cleaning -/

/-- Unfolding of replaceAll on a non-empty pattern and input. -/
theorem replaceAll_cons (p : Char) (pr rep : List Char) (c : Char)
    (cs : List Char) :
    replaceAll (p :: pr) rep (c :: cs) =
      if (p :: pr).isPrefixOf (c :: cs) then
        rep ++ replaceAll (p :: pr) rep ((c :: cs).drop (p :: pr).length)
      else c :: replaceAll (p :: pr) rep cs := by
  rw [replaceAll]

/-- replaceAll with a single-character pattern removes every occurrence
of that character when the replacement avoids it. -/
theorem not_mem_replaceAll_single (c : Char) (rep : List Char)
    (hrep : c ∉ rep) : ∀ s : List Char, c ∉ replaceAll [c] rep s := by
  intro s
  induction s with
  | nil => rw [replaceAll]; exact List.not_mem_nil c
  | cons d cs ih =>
    rw [replaceAll_cons]
    by_cases h : ([c].isPrefixOf (d :: cs)) = true
    · rw [if_pos h]
      intro hmem
      rcases List.mem_append.mp hmem with h1 | h1
      · exact hrep h1
      · have h2 : (d :: cs).drop ([c] : List Char).length = cs := rfl
        rw [h2] at h1
        exact ih h1
    · rw [if_neg h]
      intro hmem
      rcases List.mem_cons.mp hmem with h1 | h1
      · subst h1
        exact h (by simp [List.isPrefixOf])
      · exact ih h1

/-- replaceAll is the identity when the first pattern character does not
occur in the input. -/
theorem replaceAll_of_head_not_mem (p : Char) (pr rep : List Char)
    (s : List Char) (hp : p ∉ s) : replaceAll (p :: pr) rep s = s := by
  induction s with
  | nil => rw [replaceAll]
  | cons d cs ih =>
    have hpd : (p == d) = false := by
      rw [beq_eq_false_iff_ne]
      intro he; subst he; exact hp (List.mem_cons_self p cs)
    have hcond : ¬ (((p :: pr).isPrefixOf (d :: cs)) = true) := by
      rw [show ((p :: pr).isPrefixOf (d :: cs)) =
        (p == d && pr.isPrefixOf cs) from rfl, hpd, Bool.false_and]
      simp
    rw [replaceAll_cons, if_neg hcond,
      ih (fun hm => hp (List.mem_cons_of_mem d hm))]

/-- collapseWS keeps a non-whitespace head in place. -/
theorem collapseWS_cons_not_ws (b : Char) (t : List Char)
    (hb : isWS b = false) : collapseWS (b :: t) = b :: collapseWS t := by
  cases t with
  | nil => simp [collapseWS, hb]
  | cons c t' => simp [collapseWS, hb]

/-- Every whitespace character of collapsed text is a plain space. -/
theorem wsOnlySpace_collapseWS (l : List Char) :
    wsOnlySpace (collapseWS l) := by
  induction l using collapseWS.induct with
  | case1 => intro c hc hw; simp [collapseWS] at hc
  | case2 d hd =>
    intro c hc hw
    simp [collapseWS, hd] at hc
    exact hc
  | case3 d hd =>
    intro c hc hw
    simp [collapseWS, hd] at hc
    subst hc
    exact absurd hw hd
  | case4 a b t hcond ih =>
    intro c hc hw
    rw [show collapseWS (a :: b :: t) = collapseWS (b :: t) from by
      simp [collapseWS, hcond]] at hc
    exact ih c hc hw
  | case5 a b t hcond ih =>
    intro c hc hw
    rw [show collapseWS (a :: b :: t) =
        (if isWS a then ' ' else a) :: collapseWS (b :: t) from by
      simp [collapseWS, hcond]] at hc
    rcases List.mem_cons.mp hc with h1 | h1
    · subst h1
      by_cases ha : isWS a = true
      · rw [if_pos ha]
      · rw [if_neg ha] at hw
        exact absurd hw ha
    · exact ih c h1 hw

/-- Characters of collapsed text are spaces or original characters. -/
theorem mem_collapseWS {c : Char} {l : List Char}
    (h : c ∈ collapseWS l) : c = ' ' ∨ c ∈ l := by
  induction l using collapseWS.induct with
  | case1 => simp [collapseWS] at h
  | case2 d hd =>
    simp [collapseWS, hd] at h
    exact Or.inl h
  | case3 d hd =>
    simp [collapseWS, hd] at h
    exact Or.inr (by simp [h])
  | case4 a b t hcond ih =>
    rw [show collapseWS (a :: b :: t) = collapseWS (b :: t) from by
      simp [collapseWS, hcond]] at h
    rcases ih h with h1 | h1
    · exact Or.inl h1
    · exact Or.inr (List.mem_cons_of_mem a h1)
  | case5 a b t hcond ih =>
    rw [show collapseWS (a :: b :: t) =
        (if isWS a then ' ' else a) :: collapseWS (b :: t) from by
      simp [collapseWS, hcond]] at h
    rcases List.mem_cons.mp h with h1 | h1
    · by_cases ha : isWS a = true
      · rw [if_pos ha] at h1; exact Or.inl h1
      · rw [if_neg ha] at h1; exact Or.inr (by simp [h1])
    · rcases ih h1 with h2 | h2
      · exact Or.inl h2
      · exact Or.inr (List.mem_cons_of_mem a h2)

/-- Collapsed text has no two adjacent whitespace characters. -/
theorem noAdjWS_collapseWS (l : List Char) : noAdjWS (collapseWS l) := by
  induction l using collapseWS.induct with
  | case1 => simp [collapseWS, noAdjWS]
  | case2 d hd => simp [collapseWS, hd, noAdjWS]
  | case3 d hd => simp [collapseWS, hd, noAdjWS]
  | case4 a b t hcond ih =>
    rw [noAdjWS, show collapseWS (a :: b :: t) = collapseWS (b :: t) from by
      simp [collapseWS, hcond]]
    exact ih
  | case5 a b t hcond ih =>
    rw [noAdjWS, show collapseWS (a :: b :: t) =
        (if isWS a then ' ' else a) :: collapseWS (b :: t) from by
      simp [collapseWS, hcond]]
    rw [List.chain'_cons']
    refine ⟨?_, ih⟩
    intro h2 hh2
    by_cases hb : isWS b = true
    · have ha : isWS a = false := by
        cases hWa : isWS a
        · rfl
        · exact absurd (show (isWS a && isWS b) = true by
            rw [hWa, hb]; rfl) hcond
      rw [if_neg (by simp [ha])]
      rintro ⟨h3, -⟩
      rw [ha] at h3
      exact Bool.noConfusion h3
    · have hbf : isWS b = false := Bool.eq_false_iff.mpr hb
      rw [collapseWS_cons_not_ws b t hbf] at hh2
      simp only [List.head?_cons, Option.mem_def, Option.some.injEq] at hh2
      subst hh2
      rintro ⟨-, h4⟩
      rw [hbf] at h4
      exact Bool.noConfusion h4

/-- collapseWS is the identity on text whose whitespace is single plain
spaces. -/
theorem collapseWS_eq_self (l : List Char) (h1 : wsOnlySpace l)
    (h2 : noAdjWS l) : collapseWS l = l := by
  induction l using collapseWS.induct with
  | case1 => rfl
  | case2 d hd =>
    have hds : d = ' ' := h1 d (by simp) hd
    subst hds
    simp [collapseWS]
  | case3 d hd => simp [collapseWS, hd]
  | case4 a b t hcond ih =>
    exfalso
    have hR := (List.chain'_cons'.mp h2).1 b rfl
    rw [Bool.and_eq_true] at hcond
    exact hR ⟨hcond.1, hcond.2⟩
  | case5 a b t hcond ih =>
    rw [show collapseWS (a :: b :: t) =
        (if isWS a then ' ' else a) :: collapseWS (b :: t) from by
      simp [collapseWS, hcond]]
    have hx : (if isWS a then ' ' else a) = a := by
      by_cases ha : isWS a = true
      · rw [if_pos ha]; exact (h1 a (by simp) ha).symm
      · rw [if_neg ha]
    rw [hx]
    congr 1
    exact ih (fun c hc hw => h1 c (List.mem_cons_of_mem a hc) hw)
      ((List.chain'_cons'.mp h2).2)

/-- The head left by dropWhile does not satisfy the predicate. -/
theorem head?_dropWhile_false (p : Char → Bool) (l : List Char) (c : Char)
    (h : (l.dropWhile p).head? = some c) : p c = false := by
  induction l with
  | nil => exact Option.noConfusion h
  | cons a t ih =>
    rw [List.dropWhile_cons] at h
    by_cases hp : p a = true
    · rw [if_pos hp] at h; exact ih h
    · rw [if_neg hp] at h
      simp only [List.head?_cons, Option.some.injEq] at h
      subst h
      exact Bool.eq_false_iff.mpr hp

/-- dropWhile is the identity when the head does not satisfy the
predicate. -/
theorem dropWhile_eq_self_of_head (p : Char → Bool) (l : List Char)
    (h : ∀ c, l.head? = some c → p c = false) : l.dropWhile p = l := by
  cases l with
  | nil => rfl
  | cons a t =>
    rw [List.dropWhile_cons, h a rfl]
    simp

/-- dropWhile is idempotent. -/
theorem dropWhile_dropWhile (p : Char → Bool) (l : List Char) :
    (l.dropWhile p).dropWhile p = l.dropWhile p :=
  dropWhile_eq_self_of_head p _ (fun c hc => head?_dropWhile_false p l c hc)

/-- Stripping trailing whitespace yields a prefix of the input. -/
theorem rstripWS_isPrefixOf (w : List Char) : rstripWS w <+: w := by
  obtain ⟨pre, hpre⟩ := List.dropWhile_suffix (l := w.reverse)
    (fun c => isWS c)
  refine ⟨pre.reverse, ?_⟩
  rw [rstripWS, ← List.reverse_append, hpre, List.reverse_reverse]

/-- A non-empty prefix has the same head as the whole list. -/
theorem prefix_head? {u w : List Char} (h : u <+: w) (hne : u ≠ []) :
    w.head? = u.head? := by
  obtain ⟨t, rfl⟩ := h
  cases u with
  | nil => exact absurd rfl hne
  | cons a u' => rfl

/-- Characters of the stripped list come from the input. -/
theorem mem_stripWS {c : Char} {l : List Char} (h : c ∈ stripWS l) :
    c ∈ l := by
  have h1 : c ∈ lstripWS l := (rstripWS_isPrefixOf (lstripWS l)).subset h
  exact (List.dropWhile_suffix _).subset h1

/-- dropWhile preserves the no-adjacent-whitespace property. -/
theorem noAdjWS_dropWhile (p : Char → Bool) (l : List Char)
    (h : noAdjWS l) : noAdjWS (l.dropWhile p) := by
  induction l with
  | nil => exact h
  | cons a t ih =>
    rw [List.dropWhile_cons]
    by_cases hp : p a = true
    · rw [if_pos hp]
      exact ih (List.chain'_cons'.mp h).2
    · rw [if_neg hp]; exact h

/-- Reversal preserves the no-adjacent-whitespace property. -/
theorem noAdjWS_reverse (l : List Char) (h : noAdjWS l) :
    noAdjWS l.reverse := by
  rw [noAdjWS, List.chain'_reverse]
  exact List.Chain'.imp (fun a b hab hc => hab ⟨hc.2, hc.1⟩) h

/-- Stripping trailing whitespace preserves the no-adjacent-whitespace
property. -/
theorem noAdjWS_rstripWS (w : List Char) (h : noAdjWS w) :
    noAdjWS (rstripWS w) :=
  noAdjWS_reverse _ (noAdjWS_dropWhile _ _ (noAdjWS_reverse _ h))

/-- Stripping preserves the no-adjacent-whitespace property. -/
theorem noAdjWS_stripWS (w : List Char) (h : noAdjWS w) :
    noAdjWS (stripWS w) :=
  noAdjWS_rstripWS _ (noAdjWS_dropWhile _ _ h)

/-- Stripping preserves the only-plain-space property. -/
theorem wsOnlySpace_stripWS (w : List Char) (h : wsOnlySpace w) :
    wsOnlySpace (stripWS w) :=
  fun c hc hw => h c (mem_stripWS hc) hw

/-- Stripped text has no leading whitespace left. -/
theorem lstripWS_stripWS (w : List Char) :
    lstripWS (stripWS w) = stripWS w := by
  apply dropWhile_eq_self_of_head
  intro c hc
  have hne : stripWS w ≠ [] := by
    intro he; rw [he] at hc; exact Option.noConfusion hc
  have hh := prefix_head? (rstripWS_isPrefixOf (lstripWS w)) hne
  exact head?_dropWhile_false _ w c (hh.trans hc)

/-- Stripping trailing whitespace twice equals doing it once. -/
theorem rstripWS_idem (w : List Char) :
    rstripWS (rstripWS w) = rstripWS w := by
  show ((((w.reverse.dropWhile (fun c => isWS c)).reverse).reverse).dropWhile
      (fun c => isWS c)).reverse =
    (w.reverse.dropWhile (fun c => isWS c)).reverse
  rw [List.reverse_reverse, dropWhile_dropWhile]

/-- Stripped text has no trailing whitespace left. -/
theorem rstripWS_stripWS (w : List Char) :
    rstripWS (stripWS w) = stripWS w :=
  rstripWS_idem (lstripWS w)

/-- stripWS is idempotent. -/
theorem stripWS_stripWS (w : List Char) :
    stripWS (stripWS w) = stripWS w := by
  show rstripWS (lstripWS (stripWS w)) = stripWS w
  rw [lstripWS_stripWS, rstripWS_stripWS]

/-- The cleaning chain on character lists is idempotent. -/
theorem cleanBasicList_idem (l : List Char) :
    cleanBasicList (cleanBasicList l) = cleanBasicList l := by
  have hA0 : 'Â' ∉ replaceAll ['Â'] []
      (replaceAll ['Â', ' '] [' ']
        (replaceAll ['Â', ' '] [' '] l)) :=
    not_mem_replaceAll_single _ [] (List.not_mem_nil _) _
  have hzA : 'Â' ∉ collapseWS (replaceAll ['Â'] []
      (replaceAll ['Â', ' '] [' ']
        (replaceAll ['Â', ' '] [' '] l))) := by
    intro hm
    rcases mem_collapseWS hm with h1 | h1
    · exact absurd h1 (by decide)
    · exact hA0 h1
  have hyA : 'Â' ∉ cleanBasicList l := fun hm => hzA (mem_stripWS hm)
  have hyws : wsOnlySpace (cleanBasicList l) :=
    wsOnlySpace_stripWS _ (wsOnlySpace_collapseWS _)
  have hyna : noAdjWS (cleanBasicList l) :=
    noAdjWS_stripWS _ (noAdjWS_collapseWS _)
  show stripWS (collapseWS (replaceAll ['Â'] []
      (replaceAll ['Â', ' '] [' ']
        (replaceAll ['Â', ' '] [' '] (cleanBasicList l))))) =
    cleanBasicList l
  rw [replaceAll_of_head_not_mem 'Â' [' '] [' '] _ hyA,
    replaceAll_of_head_not_mem 'Â' [' '] [' '] _ hyA,
    replaceAll_of_head_not_mem 'Â' [] [] _ hyA,
    collapseWS_eq_self _ hyws hyna]
  exact stripWS_stripWS (collapseWS (replaceAll ['Â'] []
    (replaceAll ['Â', ' '] [' ']
      (replaceAll ['Â', ' '] [' '] l))))

/-- Claim C10: clean_speaker_name_basic is idempotent: applying it twice
to any string yields the same result as applying it once (one
application removes every artifact character U+00C2, collapses
whitespace runs to single spaces, and strips the ends, after which a
second application changes nothing). -/
theorem C10_clean_speaker_name_basic_idempotent (s : String) :
    clean_speaker_name_basic (clean_speaker_name_basic s) =
      clean_speaker_name_basic s :=
  congrArg String.mk (cleanBasicList_idem s.data)

/-! ### The fuzzy name-deduplication map -/

/-- Three closure passes, unfolded. -/
theorem closurePasses_three (s : List String) (m : List (String × String)) :
    closurePasses 3 s m =
      closurePass s (closurePass s (closurePass s m)) := rfl

/-- The lexicographic order is irreflexive. -/
theorem lexLt_irrefl : ∀ l : List Char, lexLt l l = false := by
  intro l
  induction l with
  | nil => rfl
  | cons a as ih =>
    simp only [lexLt]
    rw [if_neg (lt_irrefl a.toNat), if_neg (lt_irrefl a.toNat)]
    exact ih

/-- The lexicographic order is transitive. -/
theorem lexLt_trans : ∀ (l1 l2 l3 : List Char), lexLt l1 l2 = true →
    lexLt l2 l3 = true → lexLt l1 l3 = true := by
  intro l1
  induction l1 with
  | nil =>
    intro l2 l3 h1 h2
    cases l3 with
    | nil => cases l2 with
      | nil => simp [lexLt] at h1
      | cons b bs => simp [lexLt] at h2
    | cons c cs => rfl
  | cons a as ih =>
    intro l2 l3 h1 h2
    cases l2 with
    | nil => simp [lexLt] at h1
    | cons b bs =>
      cases l3 with
      | nil => simp [lexLt] at h2
      | cons c cs =>
        simp only [lexLt] at h1 h2 ⊢
        by_cases hab : a.toNat < b.toNat
        · by_cases hbc : b.toNat < c.toNat
          · rw [if_pos (by omega)]
          · rw [if_neg hbc] at h2
            by_cases hcb : c.toNat < b.toNat
            · rw [if_pos hcb] at h2
              exact Bool.noConfusion h2
            · rw [if_pos (by omega)]
        · rw [if_neg hab] at h1
          by_cases hba : b.toNat < a.toNat
          · rw [if_pos hba] at h1
            exact Bool.noConfusion h1
          · rw [if_neg hba] at h1
            by_cases hbc : b.toNat < c.toNat
            · rw [if_pos (by omega)]
            · rw [if_neg hbc] at h2
              by_cases hcb : c.toNat < b.toNat
              · rw [if_pos hcb] at h2
                exact Bool.noConfusion h2
              · rw [if_neg hcb] at h2
                rw [if_neg (by omega), if_neg (by omega)]
                exact ih bs cs h1 h2

/-- The lexicographic order is connex: distinct lists compare one way or
the other. -/
theorem lexLt_connex : ∀ (l1 l2 : List Char), lexLt l1 l2 = false →
    l1 ≠ l2 → lexLt l2 l1 = true := by
  intro l1
  induction l1 with
  | nil =>
    intro l2 h1 hne
    cases l2 with
    | nil => exact absurd rfl hne
    | cons b bs => simp [lexLt] at h1
  | cons a as ih =>
    intro l2 h1 hne
    cases l2 with
    | nil => rfl
    | cons b bs =>
      simp only [lexLt] at h1 ⊢
      by_cases hab : a.toNat < b.toNat
      · rw [if_pos hab] at h1
        exact Bool.noConfusion h1
      · rw [if_neg hab] at h1
        by_cases hba : b.toNat < a.toNat
        · rw [if_pos hba]
        · rw [if_neg hba] at h1
          have hcn : a.toNat = b.toNat := by omega
          have hchar : a = b := Char.ext (UInt32.ext hcn)
          rw [if_neg (by omega), if_neg (by omega)]
          apply ih bs h1
          intro he
          exact hne (by rw [hchar, he])

/-- Strictly smaller strings are distinct. -/
theorem strLtB_ne {a b : String} (h : strLtB a b = true) : a ≠ b := by
  intro he
  subst he
  rw [strLtB, lexLt_irrefl] at h
  exact Bool.noConfusion h

/-- The strict string order is transitive. -/
theorem strLtB_trans {a b c : String} (h1 : strLtB a b = true)
    (h2 : strLtB b c = true) : strLtB a c = true :=
  lexLt_trans a.data b.data c.data h1 h2

/-- The string order is reflexive. -/
theorem strLeB_refl (a : String) : strLeB a a = true := by
  simp [strLeB]

/-- A strictly smaller string is at most the other. -/
theorem strLeB_of_ltB {a b : String} (h : strLtB a b = true) :
    strLeB a b = true := by
  simp [strLeB, h]

/-- The string order is transitive. -/
theorem strLeB_trans {a b c : String} (h1 : strLeB a b = true)
    (h2 : strLeB b c = true) : strLeB a c = true := by
  rw [strLeB, Bool.or_eq_true, beq_iff_eq] at h1 h2
  rcases h1 with h1 | h1
  · rcases h2 with h2 | h2
    · exact strLeB_of_ltB (strLtB_trans h1 h2)
    · subst h2; exact strLeB_of_ltB h1
  · subst h1
    rcases h2 with h2 | h2
    · exact strLeB_of_ltB h2
    · subst h2; exact strLeB_refl _
/-- The chosen standard is at most the chosen variant. -/
theorem minmax_leB (a b : String) :
    strLeB (min_name a b) (max_name a b) = true := by
  by_cases hlt : strLtB a b = true
  · have hle : strLeB a b = true := strLeB_of_ltB hlt
    rw [min_name, if_pos hle, max_name, if_pos hlt]
    exact hle
  · have hltf : strLtB a b = false := Bool.eq_false_iff.mpr hlt
    rw [max_name, hltf]
    simp only [Bool.false_eq_true, if_false]
    by_cases hle : strLeB a b = true
    · rw [min_name, if_pos hle]
      exact strLeB_refl a
    · rw [min_name, if_neg hle]
      have hne : a ≠ b := by
        intro he
        exact hle (by simp [strLeB, he])
      have hba : strLtB b a = true :=
        lexLt_connex a.data b.data hltf
          (fun hd => hne (String.ext hd))
      exact strLeB_of_ltB hba

/-- The chosen standard is one of the two names. -/
theorem min_name_choice (a b : String) :
    min_name a b = a ∨ min_name a b = b := by
  rw [min_name]; split_ifs <;> simp

/-- The chosen variant is one of the two names. -/
theorem max_name_choice (a b : String) :
    max_name a b = a ∨ max_name a b = b := by
  rw [max_name]; split_ifs <;> simp

/-- setk as a map over the entries. -/
theorem setk_eq_map (m : List (String × String)) (k v : String) :
    setk m k v = m.map (fun p => if p.1 = k then (k, v) else p) := by
  induction m with
  | nil => rfl
  | cons q rest ih =>
    rcases q with ⟨a, b⟩
    simp only [setk, List.map_cons, ih]

/-- setk leaves the key list unchanged. -/
theorem keys_setk (m : List (String × String)) (k v : String) :
    (setk m k v).map Prod.fst = m.map Prod.fst := by
  induction m with
  | nil => rfl
  | cons p rest ih =>
    rcases p with ⟨a, b⟩
    by_cases h : a = k
    · simp [setk, h, ih]
    · simp [setk, h, ih]

/-- mergeEdge leaves the key list unchanged. -/
theorem keys_mergeEdge (m : List (String × String)) (n1 n2 : String) :
    (mergeEdge m n1 n2).map Prod.fst = m.map Prod.fst := by
  simp only [mergeEdge]
  split_ifs <;> simp [keys_setk]

/-- closureStep leaves the key list unchanged. -/
theorem keys_closureStep (m : List (String × String)) (name : String) :
    (closureStep m name).map Prod.fst = m.map Prod.fst := by
  simp only [closureStep]
  split_ifs <;> simp [keys_setk]

/-- The pair-merging loop leaves the key list unchanged. -/
theorem keys_mergeFold (sim : String → String → Nat) (threshold : Nat)
    (ps : List (String × String)) (m : List (String × String)) :
    ((ps.foldl (fun acc p =>
      if threshold ≤ sim p.1 p.2 then mergeEdge acc p.1 p.2 else acc)
      m).map Prod.fst) = m.map Prod.fst := by
  induction ps generalizing m with
  | nil => rfl
  | cons p ps ih =>
    rw [List.foldl_cons, ih]
    by_cases h : threshold ≤ sim p.1 p.2
    · rw [if_pos h, keys_mergeEdge]
    · rw [if_neg h]

/-- One closure pass leaves the key list unchanged. -/
theorem keys_closureFold (s : List String) (m : List (String × String)) :
    (s.foldl closureStep m).map Prod.fst = m.map Prod.fst := by
  induction s generalizing m with
  | nil => rfl
  | cons a s ih => rw [List.foldl_cons, ih, keys_closureStep]

/-- The closure passes leave the key list unchanged. -/
theorem keys_closurePasses (n : Nat) (s : List String)
    (m : List (String × String)) :
    (closurePasses n s m).map Prod.fst = m.map Prod.fst := by
  induction n generalizing m with
  | zero => rfl
  | succ n ih =>
    show (closurePasses n s (closurePass s m)).map Prod.fst = m.map Prod.fst
    rw [ih]
    exact keys_closureFold s m

/-- The key list of the standardization map is exactly the input name
list. -/
theorem keys_build (sim : String → String → Nat) (names : List String)
    (threshold : Nat) :
    (build_name_standardization_map sim names threshold).map Prod.fst =
      names := by
  simp only [build_name_standardization_map]
  rw [keys_closurePasses, keys_mergeFold]
  have hmap : ∀ l : List String,
      List.map (Prod.fst ∘ fun n => (n, n)) l = l := by
    intro l
    induction l with
    | nil => rfl
    | cons a t ih => rw [List.map_cons, ih]; rfl
  simp only [List.map_map]
  exact hmap names

/-- Lookup in a map whose values are at most their keys gives a result
at most the query. -/
theorem lookupD_le (m : List (String × String))
    (h : ∀ p ∈ m, strLeB p.2 p.1 = true) (k : String) :
    strLeB (lookupD m k) k = true := by
  induction m with
  | nil => exact strLeB_refl k
  | cons p rest ih =>
    rcases p with ⟨a, b⟩
    by_cases hak : a = k
    · simp only [lookupD]
      rw [if_pos hak]
      exact hak ▸ h (a, b) (by simp)
    · simp only [lookupD]
      rw [if_neg hak]
      exact ih (fun q hq => h q (List.mem_cons_of_mem _ hq))

/-- Lookup in a map whose values lie in K stays in K for queries in
K. -/
theorem lookupD_mem (K : List String) (m : List (String × String))
    (h : ∀ p ∈ m, p.2 ∈ K) (k : String) (hk : k ∈ K) :
    lookupD m k ∈ K := by
  induction m with
  | nil => exact hk
  | cons p rest ih =>
    rcases p with ⟨a, b⟩
    by_cases hak : a = k
    · simp only [lookupD]
      rw [if_pos hak]
      exact h (a, b) (by simp)
    · simp only [lookupD]
      rw [if_neg hak]
      exact ih (fun q hq => h q (List.mem_cons_of_mem _ hq))

/-- setk preserves the map invariant when the new value is admissible. -/
theorem mapInvK_setk (K : List String) (m : List (String × String))
    (k v : String) (h : mapInvK K m) (hv1 : strLeB v k = true)
    (hv2 : v ∈ K) : mapInvK K (setk m k v) := by
  intro p hp
  rw [setk_eq_map] at hp
  rcases List.mem_map.mp hp with ⟨q, hq, rfl⟩
  by_cases hqk : q.1 = k
  · rw [if_pos hqk]
    exact ⟨hv1, hv2⟩
  · rw [if_neg hqk]
    exact h q hq

/-- mergeEdge preserves the map invariant for names inside the key
set. -/
theorem mapInvK_mergeEdge (K : List String) (m : List (String × String))
    (n1 n2 : String) (h : mapInvK K m) (h1 : n1 ∈ K) (h2 : n2 ∈ K) :
    mapInvK K (mergeEdge m n1 n2) := by
  have hminK : min_name n1 n2 ∈ K := by
    rcases min_name_choice n1 n2 with hm | hm <;> rw [hm] <;> assumption
  have hle : ∀ p ∈ m, strLeB p.2 p.1 = true := fun p hp => (h p hp).1
  have hKm : ∀ p ∈ m, p.2 ∈ K := fun p hp => (h p hp).2
  have hlk_le : strLeB (lookupD m (min_name n1 n2)) (max_name n1 n2)
      = true :=
    strLeB_trans (lookupD_le m hle _) (minmax_leB n1 n2)
  have hlk_mem : lookupD m (min_name n1 n2) ∈ K :=
    lookupD_mem K m hKm _ hminK
  simp only [mergeEdge]
  split_ifs <;>
    first
      | exact mapInvK_setk K _ _ _
          (mapInvK_setk K m _ _ h hlk_le hlk_mem) (minmax_leB n1 n2) hminK
      | exact mapInvK_setk K m _ _ h hlk_le hlk_mem
      | exact mapInvK_setk K _ _ _
          (mapInvK_setk K m _ _ h (minmax_leB n1 n2) hminK)
          (minmax_leB n1 n2) hminK
      | exact mapInvK_setk K m _ _ h (minmax_leB n1 n2) hminK

/-- closureStep preserves the map invariant for names inside the key
set. -/
theorem mapInvK_closureStep (K : List String) (m : List (String × String))
    (name : String) (h : mapInvK K m) (hname : name ∈ K) :
    mapInvK K (closureStep m name) := by
  have hle : ∀ p ∈ m, strLeB p.2 p.1 = true := fun p hp => (h p hp).1
  have hKm : ∀ p ∈ m, p.2 ∈ K := fun p hp => (h p hp).2
  have hv_le : strLeB (lookupD m (lookupD m name)) name = true :=
    strLeB_trans (lookupD_le m hle _) (lookupD_le m hle name)
  have hv_mem : lookupD m (lookupD m name) ∈ K :=
    lookupD_mem K m hKm _ (lookupD_mem K m hKm name hname)
  simp only [closureStep]
  split_ifs <;> first
    | exact mapInvK_setk K m _ _ h hv_le hv_mem
    | exact h

/-- The pair-merging loop preserves the map invariant. -/
theorem mapInvK_mergeFold (K : List String) (sim : String → String → Nat)
    (threshold : Nat) :
    ∀ (ps : List (String × String)) (m : List (String × String)),
      mapInvK K m → (∀ p ∈ ps, p.1 ∈ K ∧ p.2 ∈ K) →
      mapInvK K (ps.foldl (fun acc p =>
        if threshold ≤ sim p.1 p.2 then mergeEdge acc p.1 p.2 else acc)
        m) := by
  intro ps
  induction ps with
  | nil => intro m h _; exact h
  | cons p ps ih =>
    intro m h hps
    rw [List.foldl_cons]
    apply ih
    · by_cases hc : threshold ≤ sim p.1 p.2
      · rw [if_pos hc]
        exact mapInvK_mergeEdge K m p.1 p.2 h (hps p (by simp)).1
          (hps p (by simp)).2
      · rw [if_neg hc]; exact h
    · exact fun q hq => hps q (List.mem_cons_of_mem _ hq)

/-- One closure pass preserves the map invariant. -/
theorem mapInvK_closureFold (K : List String) :
    ∀ (s : List String) (m : List (String × String)), mapInvK K m →
      (∀ a ∈ s, a ∈ K) → mapInvK K (s.foldl closureStep m) := by
  intro s
  induction s with
  | nil => intro m h _; exact h
  | cons a s ih =>
    intro m h hs
    rw [List.foldl_cons]
    exact ih (closureStep m a) (mapInvK_closureStep K m a h (hs a (by simp)))
      (fun b hb => hs b (List.mem_cons_of_mem _ hb))

/-- The closure passes preserve the map invariant. -/
theorem mapInvK_closurePasses (K : List String) (n : Nat) (s : List String) :
    ∀ m : List (String × String), mapInvK K m → (∀ a ∈ s, a ∈ K) →
      mapInvK K (closurePasses n s m) := by
  induction n with
  | zero => intro m h _; exact h
  | succ n ih =>
    intro m h hs
    show mapInvK K (closurePasses n s (closurePass s m))
    exact ih (closurePass s m) (mapInvK_closureFold K s m h hs) hs

/-- Every element of a pair from the pair loop occurs in the name
list. -/
theorem mem_pairsOf {a b : String} :
    ∀ {l : List String}, (a, b) ∈ pairsOf l → a ∈ l ∧ b ∈ l := by
  intro l
  induction l with
  | nil => intro h; simp [pairsOf] at h
  | cons x xs ih =>
    intro h
    rw [pairsOf] at h
    rcases List.mem_append.mp h with h1 | h1
    · rcases List.mem_map.mp h1 with ⟨y, hy, heq⟩
      injection heq with he1 he2
      subst he1; subst he2
      exact ⟨by simp, List.mem_cons_of_mem _ hy⟩
    · rcases ih h1 with ⟨ha, hb⟩
      exact ⟨List.mem_cons_of_mem _ ha, List.mem_cons_of_mem _ hb⟩

/-- Membership in an ordered insertion. -/
theorem mem_insertSorted {a b : String} :
    ∀ {l : List String}, a ∈ insertSorted b l ↔ a = b ∨ a ∈ l := by
  intro l
  induction l with
  | nil => simp [insertSorted]
  | cons c t ih =>
    by_cases h : strLeB b c = true
    · simp [insertSorted, h]
    · simp only [insertSorted, if_neg h, List.mem_cons, ih]
      tauto

/-- Sorting the names preserves membership. -/
theorem mem_sortNames {a : String} :
    ∀ {l : List String}, a ∈ sortNames l ↔ a ∈ l := by
  intro l
  induction l with
  | nil => simp [sortNames]
  | cons b t ih => simp [sortNames, mem_insertSorted, ih]

/-- Claim C9: for every input list of unique names and every threshold,
the standardization map has exactly the input names as its keys, and
every name maps to a value lexicographically at most itself (each merge
edge points from the larger name of a pair to the smaller, and the
closure only composes such edges). -/
theorem C9_map_keys_and_values (sim : String → String → Nat)
    (unique_names : List String) (threshold : Nat)
    (hnd : unique_names.Nodup) :
    ((build_name_standardization_map sim unique_names threshold).map
      Prod.fst = unique_names) ∧
    (∀ p ∈ build_name_standardization_map sim unique_names threshold,
      strLeB p.2 p.1 = true) := by
  refine ⟨keys_build sim unique_names threshold, ?_⟩
  have hinit : mapInvK unique_names
      (unique_names.map (fun n => (n, n))) := by
    intro p hp
    rcases List.mem_map.mp hp with ⟨n, hn, rfl⟩
    exact ⟨strLeB_refl n, hn⟩
  have hinv : mapInvK unique_names
      (build_name_standardization_map sim unique_names threshold) := by
    simp only [build_name_standardization_map]
    apply mapInvK_closurePasses
    · apply mapInvK_mergeFold _ _ _ _ _ hinit
      rintro ⟨a, b⟩ hp
      rcases mem_pairsOf hp with ⟨ha, hb⟩
      exact ⟨mem_sortNames.mp ha, mem_sortNames.mp hb⟩
    · intro a ha
      exact mem_sortNames.mp ha
  exact fun p hp => (hinv p hp).1

/-- Claim C9, witness on a concrete pair of names. -/
theorem C9_witness :
    ((build_name_standardization_map (fun _ _ => 100) ["b", "a"] 90).map
      Prod.fst = ["b", "a"]) ∧
    (∀ p ∈ build_name_standardization_map (fun _ _ => 100) ["b", "a"] 90,
      strLeB p.2 p.1 = true) :=
  C9_map_keys_and_values (fun _ _ => 100) ["b", "a"] 90 (by decide)

/-- Claim C4, counterexample: with the similarity table simCex the three
names alice, bob, zed satisfy the hypotheses of the claim with bridge
name zed (similar to both others, which are dissimilar), yet because zed
is the lexicographically largest name the second merge overwrites the
first and alice and bob end in different clusters; the claimed universal
transitivity statement is false. -/
theorem C4_counterexample :
    ¬ (∀ (sim : String → String → Nat),
        (∀ a b, sim a b = sim b a) →
        ∀ (threshold : Nat) (names : List String) (A B C : String),
          A ∈ names → B ∈ names → C ∈ names →
          A ≠ B → B ≠ C → A ≠ C →
          threshold ≤ sim A B → threshold ≤ sim B C →
          sim A C < threshold →
          lookupD (build_name_standardization_map sim names threshold) A =
            lookupD (build_name_standardization_map sim names threshold) B ∧
          lookupD (build_name_standardization_map sim names threshold) B =
            lookupD (build_name_standardization_map sim names threshold) C) := by
  intro h
  have hsym : ∀ a b, simCex a b = simCex b a := by
    intro a b
    have e1 : ((a = "alice" ∧ b = "zed") ∨ (a = "zed" ∧ b = "alice")) ↔
        ((b = "alice" ∧ a = "zed") ∨ (b = "zed" ∧ a = "alice")) := by
      tauto
    have e2 : ((a = "bob" ∧ b = "zed") ∨ (a = "zed" ∧ b = "bob")) ↔
        ((b = "bob" ∧ a = "zed") ∨ (b = "zed" ∧ a = "bob")) := by
      tauto
    simp only [simCex, e1, e2]
  have h2 := h simCex hsym 90 ["alice", "zed", "bob"] "alice" "zed" "bob"
    (by decide) (by decide) (by decide) (by decide) (by decide) (by decide)
    (by decide) (by decide) (by decide)
  exact absurd h2.1 (by decide)

/-- Claim C4, amended: for a three-name set presented in sorted order
with the bridge name NOT the lexicographically largest (the bridge is
either the smallest or the middle name), all three names resolve to the
same canonical root, the lexicographic minimum.  The counterexample
shows the restriction is necessary: when the bridge is the largest name,
the later merge overwrites the earlier one. -/
theorem C4_amended_transitivity (sim : String → String → Nat)
    (threshold : Nat) (x y z : String) (hxy : strLtB x y = true)
    (hyz : strLtB y z = true)
    (hedges :
      (threshold ≤ sim x y ∧ threshold ≤ sim x z ∧ sim y z < threshold) ∨
      (threshold ≤ sim x y ∧ threshold ≤ sim y z ∧ sim x z < threshold)) :
    lookupD (build_name_standardization_map sim [x, y, z] threshold) x = x ∧
    lookupD (build_name_standardization_map sim [x, y, z] threshold) y = x ∧
    lookupD (build_name_standardization_map sim [x, y, z] threshold) z =
      x := by
  have hxz : strLtB x z = true := strLtB_trans hxy hyz
  have hlexy : strLeB x y = true := strLeB_of_ltB hxy
  have hleyz : strLeB y z = true := strLeB_of_ltB hyz
  have hlexz : strLeB x z = true := strLeB_of_ltB hxz
  have hnexy : x ≠ y := strLtB_ne hxy
  have hneyz : y ≠ z := strLtB_ne hyz
  have hnexz : x ≠ z := strLtB_ne hxz
  have hminxy : min_name x y = x := by rw [min_name, if_pos hlexy]
  have hmaxxy : max_name x y = y := by rw [max_name, if_pos hxy]
  have hminxz : min_name x z = x := by rw [min_name, if_pos hlexz]
  have hmaxxz : max_name x z = z := by rw [max_name, if_pos hxz]
  have hminyz : min_name y z = y := by rw [min_name, if_pos hleyz]
  have hmaxyz : max_name y z = z := by rw [max_name, if_pos hyz]
  have hsort : sortNames [x, y, z] = [x, y, z] := by
    simp [sortNames, insertSorted, hlexy, hleyz]
  have hpairs : pairsOf [x, y, z] = [(x, y), (x, z), (y, z)] := by
    simp [pairsOf]
  have hlen : ([x, y, z] : List String).length = 3 := rfl
  rcases hedges with ⟨e1, e2, e3⟩ | ⟨e1, e2, e3⟩
  · have hne3 : ¬ threshold ≤ sim y z := not_le.mpr e3
    have hfinal : build_name_standardization_map sim [x, y, z] threshold =
        [(x, x), (y, x), (z, x)] := by
      simp only [build_name_standardization_map, hlen, hsort, hpairs,
        closurePasses_three, List.map_cons, List.map_nil, List.foldl_cons,
        List.foldl_nil]
      simp [e1, e2, hne3, mergeEdge, lookupD, setk, closurePass,
        closureStep, hminxy, hmaxxy, hminxz, hmaxxz, hminyz, hmaxyz,
        hnexy, hnexy.symm, hneyz, hneyz.symm, hnexz, hnexz.symm]
    rw [hfinal]
    refine ⟨?_, ?_, ?_⟩ <;>
      simp [lookupD, hnexy, hnexy.symm, hneyz, hneyz.symm, hnexz,
        hnexz.symm]
  · have hne3 : ¬ threshold ≤ sim x z := not_le.mpr e3
    have hfinal : build_name_standardization_map sim [x, y, z] threshold =
        [(x, x), (y, x), (z, x)] := by
      simp only [build_name_standardization_map, hlen, hsort, hpairs,
        closurePasses_three, List.map_cons, List.map_nil, List.foldl_cons,
        List.foldl_nil]
      simp [e1, e2, hne3, mergeEdge, lookupD, setk, closurePass,
        closureStep, hminxy, hmaxxy, hminxz, hmaxxz, hminyz, hmaxyz,
        hnexy, hnexy.symm, hneyz, hneyz.symm, hnexz, hnexz.symm]
    rw [hfinal]
    refine ⟨?_, ?_, ?_⟩ <;>
      simp [lookupD, hnexy, hnexy.symm, hneyz, hneyz.symm, hnexz,
        hnexz.symm]

/-- Claim C4, witness of the amended theorem: with the similarity table
simW whose bridge name alice is the smallest of the three, all three
names resolve to alice. -/
theorem C4_witness :
    lookupD (build_name_standardization_map simW ["alice", "bob", "zed"]
      90) "alice" = "alice" ∧
    lookupD (build_name_standardization_map simW ["alice", "bob", "zed"]
      90) "bob" = "alice" ∧
    lookupD (build_name_standardization_map simW ["alice", "bob", "zed"]
      90) "zed" = "alice" :=
  C4_amended_transitivity simW 90 "alice" "bob" "zed" (by decide)
    (by decide) (Or.inl ⟨by decide, by decide, by decide⟩)

end GraceWorks
